import Mathlib

/-!
Verification of the ADF (assumed density filtering) logistic-regression filter
from scripts/adf_logistic_regression_demo.py.

The script operates on JAX arrays of floats; we embed its arithmetic over the
exact reals.  Weight vectors (`mu_t`, `tau_t`) and feature rows (`Phi_t`)
become `List ℝ`, elementwise array operations become `zipWith`/`map`, and
`jnp.sum` becomes `List.sum`.  The external quadrature routine
`jax_cosmo.scipy.integrate.romb` — a fixed, deterministic, side-effect-free
rule from a third-party library — is abstracted as a parameter of type `Quad`
that every definition takes as its first argument; the structural claims below
hold for every such rule.  The sequential driver `jax.lax.scan` is embedded as
the structurally identical `scan` recursion on lists.
-/

noncomputable section

/-- Type of the external 1-D quadrature routine (`integrate.romb`):
it consumes an integrand and the two integration bounds. -/
abbrev Quad : Type := (ℝ → ℝ) → ℝ → ℝ → ℝ

/-- Posterior state of the filter: the pair of the mean vector and the
diagonal-variance vector, as threaded by the script. -/
abbrev PState : Type := List ℝ × List ℝ

/-- One observation: a feature row together with its binary label
(carried as a real number, exactly as the float array entry is). -/
abbrev Row : Type := List ℝ × ℝ

/-! ### Elementwise array operations (jnp broadcasting on 1-D arrays) -/

/-- `xs + c`: broadcast addition of a scalar to a vector. -/
def vadds (xs : List ℝ) (c : ℝ) : List ℝ := xs.map (fun x => x + c)

/-- `xs * ys`: elementwise product of two vectors. -/
def vmul (xs ys : List ℝ) : List ℝ := List.zipWith (fun a b => a * b) xs ys

/-- `xs ** 2`: elementwise square. -/
def vsq (xs : List ℝ) : List ℝ := xs.map (fun x => x ^ 2)

/-- `xs * c`: broadcast multiplication by a scalar. -/
def vmuls (xs : List ℝ) (c : ℝ) : List ℝ := xs.map (fun x => x * c)

/-- `xs / c`: broadcast division by a scalar. -/
def vdivs (xs : List ℝ) (c : ℝ) : List ℝ := xs.map (fun x => x / c)

/-- `xs + ys`: elementwise sum of two vectors. -/
def vadd (xs ys : List ℝ) : List ℝ := List.zipWith (fun a b => a + b) xs ys

/-- `xs.sum()`. -/
def vsum (xs : List ℝ) : ℝ := xs.sum

/-! ### The likelihood / integrand functions of the script -/

/-- `jnp.log1p`. -/
def log1p (x : ℝ) : ℝ := Real.log (1 + x)

/-- `def sigmoid(z): return jnp.exp(z) / (1 + jnp.exp(z))`. -/
def sigmoid (z : ℝ) : ℝ := Real.exp z / (1 + Real.exp z)

/-- `def log_sigmoid(z): return z - jnp.log1p(jnp.exp(z))`. -/
def log_sigmoid (z : ℝ) : ℝ := z - log1p (Real.exp z)

/-- `jax.scipy.stats.norm.logpdf(x, loc, scale)`: the log-density of the
normal distribution with mean `loc` and standard deviation `scale`. -/
def norm_logpdf (x loc scale : ℝ) : ℝ :=
  -(((x - loc) / scale) ^ 2) / 2 - Real.log (scale * Real.sqrt (2 * Real.pi))

/-- The shared log-space expression of `Zt_func`, `mt_func` and `vt_func`:
`y * log_sigmoid(eta) + (1 - y) * jnp.log1p(-sigmoid(eta))
 + norm.logpdf(eta, mu, v)`. -/
def log_term (eta y mu v : ℝ) : ℝ :=
  y * log_sigmoid eta + (1 - y) * log1p (-(sigmoid eta)) + norm_logpdf eta mu v

/-- `Zt_func(eta, y, mu, v) = jnp.exp(log_term)`. -/
def Zt_func (eta y mu v : ℝ) : ℝ := Real.exp (log_term eta y mu v)

/-- `mt_func(eta, y, mu, v, Zt) = eta * jnp.exp(log_term) / Zt`. -/
def mt_func (eta y mu v Zt : ℝ) : ℝ := eta * Real.exp (log_term eta y mu v) / Zt

/-- `vt_func(eta, y, mu, v, Zt) = eta ** 2 * jnp.exp(log_term) / Zt`. -/
def vt_func (eta y mu v Zt : ℝ) : ℝ :=
  eta ^ 2 * Real.exp (log_term eta y mu v) / Zt

/-! ### The quadrature evaluator (the moment-matching block of `adf_step`) -/

/-- The moment-matching block of `adf_step` (its three `integrate.romb` calls
followed by `vt = vt - mt ** 2`), as a function of the predictive mean `m`,
the predictive standard deviation `s` and the label `y`: returns `(Z, M, V)`. -/
def quadEval (quad : Quad) (m s y lbound ubound : ℝ) : ℝ × ℝ × ℝ :=
  let Zt := quad (fun eta => Zt_func eta y m s) lbound ubound
  let mt := quad (fun eta => mt_func eta y m s Zt) lbound ubound
  let vt := quad (fun eta => vt_func eta y m s Zt) lbound ubound - mt ^ 2
  (Zt, mt, vt)

/-! ### The single-step update `adf_step` -/

/-- `tau_t_cond = tau_t + prior_variance` (the diffusion line of `adf_step`). -/
def tau_pred (tau : List ℝ) (prior_variance : ℝ) : List ℝ := vadds tau prior_variance

/-- `v_t_cond = (Phi_t ** 2 * tau_t_cond).sum()` — also the expression the
gain divides by, recomputed verbatim on the gain line of the script. -/
def v_pred (Phi taup : List ℝ) : ℝ := vsum (vmul (vsq Phi) taup)

/-- `a = Phi_t * tau_t_cond / (Phi_t ** 2 * tau_t_cond).sum()`. -/
def gain (Phi taup : List ℝ) : List ℝ := vdivs (vmul Phi taup) (v_pred Phi taup)

/-- The body of `adf_step(state, xs, prior_variance, lbound, ubound)`,
line for line.  It returns the same `(mu_t, tau_t)` pair both as the new
carry and as the emitted history element, as the script does. -/
def adf_step (quad : Quad) (prior_variance lbound ubound : ℝ)
    (state : PState) (xs : Row) : PState × PState :=
  let mu_t := state.1
  let tau_t := state.2
  let Phi_t := xs.1
  let y_t := xs.2
  let mu_t_cond := mu_t
  let tau_t_cond := tau_pred tau_t prior_variance
  let m_t_cond := vsum (vmul Phi_t mu_t_cond)
  let v_t_cond := v_pred Phi_t tau_t_cond
  let v_t_cond_sqrt := Real.sqrt v_t_cond
  let MV := quadEval quad m_t_cond v_t_cond_sqrt y_t lbound ubound
  let mt := MV.2.1
  let vt := MV.2.2
  let delta_m := mt - m_t_cond
  let delta_v := vt - v_t_cond
  let a := gain Phi_t tau_t_cond
  let mu_t' := vadd mu_t_cond (vmuls a delta_m)
  let tau_t' := vadd tau_t_cond (vmuls (vsq a) delta_v)
  ((mu_t', tau_t'), (mu_t', tau_t'))

/-! ### Claim-side (specification) definitions -/

/-- The Bernoulli log-likelihood exactly as the specification words it:
`log_lik(η, y) = y·log σ(η) + (1−y)·log(1−σ(η))`. -/
def log_lik (eta y : ℝ) : ℝ :=
  y * Real.log (sigmoid eta) + (1 - y) * Real.log (1 - sigmoid eta)

/-- The integrand the specification words name:
`exp(log_lik(η, y) + log N(η; m, s))`. -/
def integrand (eta y m s : ℝ) : ℝ := Real.exp (log_lik eta y + norm_logpdf eta m s)

/-- The quadrature evaluator exactly as the specification words it: `Z` is the
quadrature of the integrand, `M` the quadrature of `η` times the integrand
divided by `Z`, and `V` the quadrature of `η²` times the integrand divided by
`Z`, minus `M²`. -/
def quadEval_spec (quad : Quad) (m s y lbound ubound : ℝ) : ℝ × ℝ × ℝ :=
  let Z := quad (fun eta => integrand eta y m s) lbound ubound
  let M := quad (fun eta => eta * integrand eta y m s / Z) lbound ubound
  let V := quad (fun eta => eta ^ 2 * integrand eta y m s / Z) lbound ubound - M ^ 2
  (Z, M, V)

/-- The single-step update exactly as the claim words it: diffuse the variance
(mean unchanged), project to the predictive scalars, moment-match through the
quadrature evaluator at `(m_pred, sqrt(v_pred), y)`, distribute with the gain
`a = φ ⊙ variance_pred / v_pred`, and return the updated mean and variance. -/
def adf_step_claim (quad : Quad) (process_noise lbound ubound : ℝ)
    (state : PState) (row : Row) : PState :=
  let variance_pred := vadds state.2 process_noise
  let m_p := vsum (vmul row.1 state.1)
  let v_p := vsum (vmul (vsq row.1) variance_pred)
  let MV := quadEval quad m_p (Real.sqrt v_p) row.2 lbound ubound
  let a := vdivs (vmul row.1 variance_pred) v_p
  (vadd state.1 (vmuls a (MV.2.1 - m_p)),
   vadd variance_pred (vmuls (vsq a) (MV.2.2 - v_p)))

/-! ### Basic facts about the sigmoid expressions -/

/-- The stable form `z - log1p(exp z)` is the logarithm of the sigmoid. -/
theorem log_sigmoid_eq_log (z : ℝ) : log_sigmoid z = Real.log (sigmoid z) := by
  have h1 : (0 : ℝ) < 1 + Real.exp z := by positivity
  rw [log_sigmoid, log1p, sigmoid,
    Real.log_div (Real.exp_ne_zero z) (ne_of_gt h1), Real.log_exp]

/-- `log1p(-sigmoid z)` is the logarithm of `1 - sigmoid z`. -/
theorem log1p_neg_sigmoid (z : ℝ) : log1p (-(sigmoid z)) = Real.log (1 - sigmoid z) := by
  rw [log1p]
  ring_nf

/-- The script's shared log-space expression equals the specification's
`log_lik + log N`. -/
theorem log_term_eq (eta y mu v : ℝ) :
    log_term eta y mu v = log_lik eta y + norm_logpdf eta mu v := by
  rw [log_term, log_lik, log_sigmoid_eq_log, log1p_neg_sigmoid]

/-! ### Claims C1 and C2 -/

/-- Claim C1: a single ADF step diffuses the variance with the process noise
(mean unchanged), projects the predictive scalars `m_pred = φ·mean` and
`v_pred = Σ φᵢ²·variance_predᵢ`, obtains `(M, V)` from the quadrature
evaluator at `(m_pred, sqrt(v_pred), y)`, forms the gain
`a = φ ⊙ variance_pred / v_pred`, and returns `mean + a·(M − m_pred)` and
`variance_pred + a²·(V − v_pred)` (as both carry and history element). -/
theorem adf_step_matches_claim (quad : Quad) (pn lb ub : ℝ) (state : PState) (row : Row) :
    adf_step quad pn lb ub state row =
      (adf_step_claim quad pn lb ub state row, adf_step_claim quad pn lb ub state row) :=
  rfl

/-- Claim C2: the quadrature evaluator computes `Z` as the fixed quadrature of
`exp(log_lik(η,y) + log N(η; m, s))`, `M` as the quadrature of `η` times that
integrand divided by `Z`, and `V` as the quadrature of `η²` times that
integrand divided by `Z`, minus `M²`. -/
theorem quadEval_matches_spec (quad : Quad) (m s y lb ub : ℝ) :
    quadEval quad m s y lb ub = quadEval_spec quad m s y lb ub := by
  have hZ : (fun eta => Zt_func eta y m s) = fun eta => integrand eta y m s := by
    funext eta
    simp only [Zt_func, integrand, log_term_eq]
  have hM : ∀ Z, (fun eta => mt_func eta y m s Z) =
      fun eta => eta * integrand eta y m s / Z := by
    intro Z
    funext eta
    simp only [mt_func, integrand, log_term_eq]
  have hV : ∀ Z, (fun eta => vt_func eta y m s Z) =
      fun eta => eta ^ 2 * integrand eta y m s / Z := by
    intro Z
    funext eta
    simp only [vt_func, integrand, log_term_eq]
  simp only [quadEval, quadEval_spec, hZ, hM, hV]

/-! ### The sequential driver (`jax.lax.scan`) -/

/-- The structure of `jax.lax.scan`: thread the carry through the list of
inputs and collect the per-step outputs in order. -/
def scan {σ α β : Type} (f : σ → α → σ × β) : σ → List α → σ × List β
  | s, [] => (s, [])
  | s, x :: xs =>
    let p := f s x
    let rest := scan f p.1 xs
    (rest.1, p.2 :: rest.2)

/-- The step emits the same pair as carry and as history element. -/
theorem adf_step_snd_eq_fst (quad : Quad) (pn lb ub : ℝ) (state : PState) (row : Row) :
    (adf_step quad pn lb ub state row).2 = (adf_step quad pn lb ub state row).1 :=
  rfl

/-- The scan history has one entry per input. -/
theorem scan_length {σ α β : Type} (f : σ → α → σ × β) (s : σ) (xs : List α) :
    (scan f s xs).2.length = xs.length := by
  induction xs generalizing s with
  | nil => rfl
  | cons x xs ih => simp [scan, ih]

/-- Running the step function as a fold, keeping only the carry. -/
def foldCarry {σ α : Type} (f : σ → α → σ × σ) (s : σ) (xs : List α) : σ :=
  xs.foldl (fun t x => (f t x).1) s

/-- When the step emits its own carry, the i-th history entry is the carry
after folding the first i+1 inputs. -/
theorem scan_get? {σ α : Type} (f : σ → α → σ × σ)
    (hf : ∀ s x, (f s x).2 = (f s x).1) (s : σ) (xs : List α) (i : ℕ)
    (h : i < xs.length) :
    (scan f s xs).2.get? i = some (foldCarry f s (xs.take (i + 1))) := by
  induction xs generalizing s i with
  | nil => simp at h
  | cons x xs ih =>
    cases i with
    | zero => simp [scan, hf, foldCarry]
    | succ i =>
      have hlen : i < xs.length := by
        simp at h
        omega
      simpa [scan, foldCarry] using ih (f s x).1 i hlen

/-- The last element of a cons list is the last element of its nonempty tail. -/
theorem getLast?_cons_ne {α : Type} (a : α) (l : List α) (h : l ≠ []) :
    (a :: l).getLast? = l.getLast? := by
  cases l with
  | nil => exact absurd rfl h
  | cons b m => simp [List.getLast?_cons_cons]

/-- When the step emits its own carry, the final carry of the scan is the last
history entry. -/
theorem scan_getLast? {σ α : Type} (f : σ → α → σ × σ)
    (hf : ∀ s x, (f s x).2 = (f s x).1) (s : σ) (xs : List α) (h : xs ≠ []) :
    (scan f s xs).2.getLast? = some (scan f s xs).1 := by
  induction xs generalizing s with
  | nil => exact absurd rfl h
  | cons x xs ih =>
    cases xs with
    | nil =>
      show ((f s x).2 :: []).getLast? = some (f s x).1
      simp [hf]
    | cons y ys =>
      have hne : (scan f (f s x).1 (y :: ys)).2 ≠ [] := by
        intro hnil
        have := scan_length f (f s x).1 (y :: ys)
        rw [hnil] at this
        simp at this
      have hih := ih (f s x).1 (by simp)
      show ((f s x).2 :: (scan f (f s x).1 (y :: ys)).2).getLast? =
        some (scan f (f s x).1 (y :: ys)).1
      rw [getLast?_cons_ne _ _ hne, hih]

/-! ### Concrete instances -/

/-- A concrete fixed, deterministic quadrature rule (midpoint rule), used to
instantiate the quadrature parameter in closed concrete statements. -/
def mid_quad : Quad := fun f a b => (b - a) * f ((a + b) / 2)

/-- The carry produced by folding `adf_step` over a list of rows (the state
after processing those rows in order). -/
def adf_run (quad : Quad) (pn lb ub : ℝ) (s : PState) (rows : List Row) : PState :=
  foldCarry (adf_step quad pn lb ub) s rows

/-! ### Shape preservation -/

/-- One ADF step preserves the dimension of the mean and variance vectors. -/
theorem adf_step_shape (quad : Quad) (pn lb ub : ℝ) (mu tau phi : List ℝ) (y : ℝ)
    (D : ℕ) (hm : mu.length = D) (ht : tau.length = D) (hp : phi.length = D) :
    (adf_step quad pn lb ub (mu, tau) (phi, y)).1.1.length = D ∧
      (adf_step quad pn lb ub (mu, tau) (phi, y)).1.2.length = D := by
  constructor <;>
    simp [adf_step, vadd, vmuls, gain, vdivs, vmul, vsq, tau_pred, vadds,
      List.length_zipWith, hm, ht, hp]

/-- Folding the step over any row list of dimension D preserves dimension D. -/
theorem adf_run_shape (quad : Quad) (pn lb ub : ℝ) (D : ℕ) (rows : List Row) :
    ∀ s : PState, s.1.length = D → s.2.length = D → (∀ r ∈ rows, r.1.length = D) →
      (adf_run quad pn lb ub s rows).1.length = D ∧
        (adf_run quad pn lb ub s rows).2.length = D := by
  induction rows with
  | nil => exact fun s h1 h2 _ => ⟨h1, h2⟩
  | cons r rows ih =>
    intro s h1 h2 hr
    have hstep := adf_step_shape quad pn lb ub s.1 s.2 r.1 r.2 D h1 h2 (hr r (by simp))
    have hrun : adf_run quad pn lb ub s (r :: rows) =
        adf_run quad pn lb ub (adf_step quad pn lb ub s r).1 rows := rfl
    rw [hrun]
    exact ih _ hstep.1 hstep.2 fun q hq => hr q (List.mem_cons_of_mem _ hq)

/-! ### Claim C3 -/

/-- Claim C3 counterexample: for a run with N = 1 observation and D = 1, the
history emitted by the driver has a single entry, not N + 1 = 2; in
particular it cannot contain the initial state followed by the post-update
state. -/
theorem adf_scan_history_cex :
    ¬ ((scan (adf_step mid_quad 0 (-20) 20) (([0], [1]) : PState)
        [([1], 1)]).2.length = 1 + 1) := by
  simp [scan]

/-- Claim C3 (amended): the history produced by the sequential driver has
shape (N, D) — one entry per observation, each of dimension D — and its i-th
entry is the posterior state after processing rows 0..i in strict index
order; the initial state is not part of the history. -/
theorem adf_scan_history_shape (quad : Quad) (pn lb ub : ℝ) (D : ℕ) (s : PState)
    (xs : List Row) (h1 : s.1.length = D) (h2 : s.2.length = D)
    (hrows : ∀ r ∈ xs, r.1.length = D) :
    (scan (adf_step quad pn lb ub) s xs).2.length = xs.length ∧
      (∀ i, i < xs.length →
        (scan (adf_step quad pn lb ub) s xs).2.get? i =
          some (adf_run quad pn lb ub s (xs.take (i + 1)))) ∧
      (∀ st ∈ (scan (adf_step quad pn lb ub) s xs).2,
        st.1.length = D ∧ st.2.length = D) := by
  refine ⟨scan_length _ s xs,
    fun i hi => scan_get? _ (fun t x => rfl) s xs i hi, ?_⟩
  intro st hst
  obtain ⟨i, hget⟩ := List.mem_iff_get?.mp hst
  have hi : i < xs.length := by
    by_contra hc
    rw [List.get?_eq_none.mpr (by rw [scan_length]; omega)] at hget
    exact Option.noConfusion hget
  have := scan_get? (adf_step quad pn lb ub) (fun t x => rfl) s xs i hi
  rw [this] at hget
  have hst' : st = adf_run quad pn lb ub s (xs.take (i + 1)) :=
    (Option.some_inj.mp hget).symm
  rw [hst']
  exact adf_run_shape quad pn lb ub D (xs.take (i + 1)) s h1 h2
    fun r hr => hrows r (List.take_subset _ _ hr)

/-- Witness for the amended claim C3, at a concrete run with N = 1, D = 1. -/
theorem adf_scan_history_shape_witness :
    ((([0], [1]) : PState).1.length = 1 ∧ (([0], [1]) : PState).2.length = 1 ∧
        (∀ r ∈ ([([1], 1)] : List Row), r.1.length = 1)) ∧
      ((scan (adf_step mid_quad 0 (-20) 20) (([0], [1]) : PState)
          [([1], 1)]).2.length = ([([1], 1)] : List Row).length ∧
        (∀ i, i < ([([1], 1)] : List Row).length →
          (scan (adf_step mid_quad 0 (-20) 20) (([0], [1]) : PState)
              [([1], 1)]).2.get? i =
            some (adf_run mid_quad 0 (-20) 20 ([0], [1])
              (([([1], 1)] : List Row).take (i + 1)))) ∧
        (∀ st ∈ (scan (adf_step mid_quad 0 (-20) 20) (([0], [1]) : PState)
            [([1], 1)]).2, st.1.length = 1 ∧ st.2.length = 1)) :=
  ⟨⟨by simp, by simp, by simp⟩,
    adf_scan_history_shape mid_quad 0 (-20) 20 1 ([0], [1]) [([1], 1)]
      (by simp) (by simp) (by simp)⟩

/-! ### Claim C9 -/

/-- Claim C9: for a nonempty observation sequence, the final posterior state
returned by the sequential driver is the last entry of the returned history
(the step emits the same pair as carry and history element). -/
theorem adf_scan_final_eq_last (quad : Quad) (pn lb ub : ℝ) (s : PState)
    (xs : List Row) (h : xs ≠ []) :
    (scan (adf_step quad pn lb ub) s xs).2.getLast? =
      some (scan (adf_step quad pn lb ub) s xs).1 :=
  scan_getLast? _ (fun t x => adf_step_snd_eq_fst quad pn lb ub t x) s xs h

/-- Witness for claim C9 at a concrete nonempty input. -/
theorem adf_scan_final_eq_last_witness :
    (([([1], 1)] : List Row) ≠ []) ∧
      (scan (adf_step mid_quad 0 (-20) 20) (([0], [1]) : PState)
          [([1], 1)]).2.getLast? =
        some (scan (adf_step mid_quad 0 (-20) 20) (([0], [1]) : PState)
          [([1], 1)]).1 :=
  ⟨by simp, adf_scan_final_eq_last mid_quad 0 (-20) 20 ([0], [1]) [([1], 1)] (by simp)⟩

/-! ### Claim C10 -/

/-- A coordinate with zero feature value has zero gain. -/
theorem gain_get?_eq_zero (phi taup : List ℝ) (i : ℕ)
    (hi : phi.get? i = some 0) (htp : taup.get? i ≠ none) :
    (gain phi taup).get? i = some 0 := by
  obtain ⟨t, htg⟩ := Option.ne_none_iff_exists.mp htp
  have htg' : taup.get? i = some t := htg.symm
  simp only [List.get?_eq_getElem?] at hi htg' ⊢
  simp [gain, vdivs, vmul, List.getElem?_map, List.getElem?_zipWith', hi, htg']

/-- Claim C10: in a step with `v_pred ≠ 0`, every coordinate whose feature
value is zero has gain 0, keeps its mean entry unchanged, and gets exactly
the process noise added to its variance entry; with zero process noise the
coordinate is left exactly unchanged. -/
theorem adf_step_frame (quad : Quad) (pn lb ub : ℝ) (mu tau phi : List ℝ) (y : ℝ)
    (i : ℕ) (hm : mu.length = phi.length) (ht : tau.length = phi.length)
    (hv : v_pred phi (tau_pred tau pn) ≠ 0) (hi : phi.get? i = some 0) :
    (gain phi (tau_pred tau pn)).get? i = some 0 ∧
      (adf_step quad pn lb ub (mu, tau) (phi, y)).1.1.get? i = mu.get? i ∧
      (adf_step quad pn lb ub (mu, tau) (phi, y)).1.2.get? i =
        (tau.get? i).map (fun t => t + pn) ∧
      (pn = 0 →
        (adf_step quad pn lb ub (mu, tau) (phi, y)).1.2.get? i = tau.get? i) := by
  have hilt : i < phi.length := by
    by_contra hc
    rw [List.get?_eq_none.mpr (by omega)] at hi
    exact Option.noConfusion hi
  have him : i < mu.length := by omega
  have hit : i < tau.length := by omega
  obtain ⟨m, hmg⟩ : ∃ m, mu.get? i = some m := ⟨_, List.get?_eq_get him⟩
  obtain ⟨t, htg⟩ : ∃ t, tau.get? i = some t := ⟨_, List.get?_eq_get hit⟩
  have htg' : tau[i]? = some t := by
    simpa only [List.get?_eq_getElem?] using htg
  have hmg' : mu[i]? = some m := by
    simpa only [List.get?_eq_getElem?] using hmg
  have htpg : (tau_pred tau pn).get? i = some (t + pn) := by
    simp only [List.get?_eq_getElem?]
    simp [tau_pred, vadds, List.getElem?_map, htg']
  have hag : (gain phi (tau_pred tau pn)).get? i = some 0 :=
    gain_get?_eq_zero phi (tau_pred tau pn) i hi (by rw [htpg]; exact Option.noConfusion)
  have htpg' : (tau_pred tau pn)[i]? = some (t + pn) := by
    simpa only [List.get?_eq_getElem?] using htpg
  have hag' : (gain phi (tau_pred tau pn))[i]? = some 0 := by
    simpa only [List.get?_eq_getElem?] using hag
  have h1 : (adf_step quad pn lb ub (mu, tau) (phi, y)).1.1.get? i = mu.get? i := by
    simp only [List.get?_eq_getElem?]
    simp [adf_step, vadd, vmuls, List.getElem?_zipWith', List.getElem?_map, hag', hmg']
  have h2 : (adf_step quad pn lb ub (mu, tau) (phi, y)).1.2.get? i =
      (tau.get? i).map (fun t => t + pn) := by
    simp only [List.get?_eq_getElem?]
    simp [adf_step, vadd, vmuls, vsq, List.getElem?_zipWith', List.getElem?_map,
      hag', htpg', htg']
  refine ⟨hag, h1, h2, fun hpn => ?_⟩
  rw [h2, hpn, htg]
  simp

/-- Witness for claim C10 at a concrete step with D = 2, feature row [0, 1]
and coordinate 0. -/
theorem adf_step_frame_witness :
    (([(0 : ℝ), 0] : List ℝ).length = ([(0 : ℝ), 1] : List ℝ).length ∧
        ([(1 : ℝ), 1] : List ℝ).length = ([(0 : ℝ), 1] : List ℝ).length ∧
        v_pred [0, 1] (tau_pred [1, 1] 0) ≠ 0 ∧
        ([(0 : ℝ), 1] : List ℝ).get? 0 = some 0) ∧
      ((gain [0, 1] (tau_pred [1, 1] 0)).get? 0 = some 0 ∧
        (adf_step mid_quad 0 (-20) 20 ([0, 0], [1, 1]) ([0, 1], 1)).1.1.get? 0 =
          ([(0 : ℝ), 0] : List ℝ).get? 0 ∧
        (adf_step mid_quad 0 (-20) 20 ([0, 0], [1, 1]) ([0, 1], 1)).1.2.get? 0 =
          (([(1 : ℝ), 1] : List ℝ).get? 0).map (fun t => t + 0) ∧
        ((0 : ℝ) = 0 →
          (adf_step mid_quad 0 (-20) 20 ([0, 0], [1, 1]) ([0, 1], 1)).1.2.get? 0 =
            ([(1 : ℝ), 1] : List ℝ).get? 0)) :=
  ⟨⟨by simp, by simp,
      by norm_num [v_pred, tau_pred, vadds, vsq, vmul, vsum], by simp⟩,
    adf_step_frame mid_quad 0 (-20) 20 [0, 0] [1, 1] [0, 1] 1 0 (by simp) (by simp)
      (by norm_num [v_pred, tau_pred, vadds, vsq, vmul, vsum]) (by simp)⟩

/-! ### Claims C5 and C8: the degenerate all-zero feature row -/

/-- Claim C5 (code evaluated at the failing input): for the all-zero feature
row [0, 0] with variance [1, 1] and zero process noise, the predictive
variance `v_pred` — the denominator of the gain — is exactly 0, and the step
performs the division by it unguarded. -/
theorem adf_step_degenerate_vpred :
    v_pred [0, 0] (tau_pred [1, 1] 0) = 0 ∧
      gain [0, 0] (tau_pred [1, 1] 0) =
        vdivs (vmul [0, 0] (tau_pred [1, 1] 0)) 0 := by
  constructor
  · norm_num [v_pred, tau_pred, vadds, vsq, vmul, vsum]
  · norm_num [gain, v_pred, tau_pred, vadds, vsq, vmul, vsum, vdivs]

/-- Claim C8 (code evaluated at the failing input): for the all-zero feature
row [0] in dimension 1, the gain is the elementwise quotient of [0] by the
zero denominator — a division by zero, so in the script's float arithmetic
the updated mean and variance are NaN rather than unchanged. -/
theorem adf_step_zero_row_div_zero :
    gain [0] (tau_pred [1] 0) = vdivs [0] 0 ∧ v_pred [0] (tau_pred [1] 0) = 0 := by
  constructor
  · norm_num [gain, v_pred, tau_pred, vadds, vsq, vmul, vsum, vdivs]
  · norm_num [v_pred, tau_pred, vadds, vsq, vmul, vsum]
